import Mathlib

/-!
Verification of the weighted linear regression kernel of this repository
(`samples/wlr.py` and `calc_functions/wlr_functions.py`).

The numeric values of the program are IEEE-754 doubles.  We embed them as an
inductive type `FVal` with NaN, +infinity, -infinity and exact rational finite
values, and give the arithmetic operations their IEEE-754 semantics on this
carrier (NaN propagation, signed infinities, `inf - inf = NaN`, `0 * inf =
NaN`, `q / 0 = sign(q) * inf`, `0 / 0 = NaN`, comparisons with NaN are false).
This is the exact-arithmetic idealisation of float arithmetic: rounding,
overflow to infinity, and the sign of zero are not modelled, which matches the
specification's own convention that numeric results are considered up to
floating-point rounding.  `FVal.sqrt` keeps the IEEE classification (NaN for
NaN and negatives, +inf for +inf) and uses the computable `Rat.sqrt` as the
stand-in value on finite non-negatives; every property proved below depends
only on the classification and sign of square roots, never on their magnitude.
-/

/-- An IEEE-754 double idealised over exact rationals: NaN, the two
infinities, or a finite value. -/
inductive FVal where
  | nan : FVal
  | pinf : FVal
  | ninf : FVal
  | fin : ℚ → FVal
deriving DecidableEq, Repr

namespace FVal

/-- IEEE negation. -/
def neg : FVal → FVal
  | .nan => .nan
  | .pinf => .ninf
  | .ninf => .pinf
  | .fin q => .fin (-q)

/-- IEEE addition: NaN propagates, opposite infinities give NaN. -/
def add : FVal → FVal → FVal
  | .nan, _ => .nan
  | _, .nan => .nan
  | .pinf, .ninf => .nan
  | .ninf, .pinf => .nan
  | .pinf, _ => .pinf
  | _, .pinf => .pinf
  | .ninf, _ => .ninf
  | _, .ninf => .ninf
  | .fin q, .fin r => .fin (q + r)

/-- IEEE subtraction. -/
def sub (a b : FVal) : FVal := add a (neg b)

/-- IEEE multiplication: NaN propagates, `0 * inf = NaN`, infinities
multiply by sign. -/
def mul : FVal → FVal → FVal
  | .nan, _ => .nan
  | _, .nan => .nan
  | .pinf, .pinf => .pinf
  | .pinf, .ninf => .ninf
  | .ninf, .pinf => .ninf
  | .ninf, .ninf => .pinf
  | .pinf, .fin q => if q = 0 then .nan else if 0 < q then .pinf else .ninf
  | .fin q, .pinf => if q = 0 then .nan else if 0 < q then .pinf else .ninf
  | .ninf, .fin q => if q = 0 then .nan else if 0 < q then .ninf else .pinf
  | .fin q, .ninf => if q = 0 then .nan else if 0 < q then .ninf else .pinf
  | .fin q, .fin r => .fin (q * r)

/-- IEEE division: NaN propagates, `inf / inf = NaN`, `q / 0` is a signed
infinity for nonzero `q` (the divisor zero is treated as +0, the only zero of
the model), `0 / 0 = NaN`, finite over infinite is zero. -/
def div : FVal → FVal → FVal
  | .nan, _ => .nan
  | _, .nan => .nan
  | .pinf, .pinf => .nan
  | .pinf, .ninf => .nan
  | .ninf, .pinf => .nan
  | .ninf, .ninf => .nan
  | .pinf, .fin q => if 0 ≤ q then .pinf else .ninf
  | .ninf, .fin q => if 0 ≤ q then .ninf else .pinf
  | .fin _, .pinf => .fin 0
  | .fin _, .ninf => .fin 0
  | .fin q, .fin r =>
      if r = 0 then (if q = 0 then .nan else if 0 < q then .pinf else .ninf)
      else .fin (q / r)

/-- IEEE square root by classification; finite non-negative arguments go
through the computable `Rat.sqrt` stand-in (see the file comment). -/
def sqrt : FVal → FVal
  | .nan => .nan
  | .pinf => .pinf
  | .ninf => .nan
  | .fin q => if q < 0 then .nan else .fin (Rat.sqrt q)

/-- `e ** -2`, the inverse-variance weight of an error value
(`l_w = l_y_err ** -2` in `wlr.py`): `0 ** -2 = +inf`, `(+-inf) ** -2 = 0`,
NaN propagates. -/
def powNegTwo (e : FVal) : FVal := div (.fin 1) (mul e e)

/-- IEEE `<` as the program's `bool`: any comparison with NaN is false. -/
def ltB : FVal → FVal → Bool
  | .nan, _ => false
  | _, .nan => false
  | .pinf, _ => false
  | .ninf, .ninf => false
  | .ninf, _ => true
  | .fin _, .pinf => true
  | .fin _, .ninf => false
  | .fin q, .fin r => decide (q < r)

/-- IEEE `<=` as the program's `bool`: any comparison with NaN is false. -/
def leB : FVal → FVal → Bool
  | .nan, _ => false
  | _, .nan => false
  | .pinf, .pinf => true
  | .pinf, _ => false
  | .ninf, _ => true
  | .fin _, .pinf => true
  | .fin _, .ninf => false
  | .fin q, .fin r => decide (q ≤ r)

/-- IEEE `>`. -/
def gtB (a b : FVal) : Bool := ltB b a

/-- IEEE `==`: NaN equals nothing. -/
def eqB : FVal → FVal → Bool
  | .pinf, .pinf => true
  | .ninf, .ninf => true
  | .fin q, .fin r => decide (q = r)
  | _, _ => false

/-- Is the value NaN? -/
def isNan : FVal → Bool
  | .nan => true
  | _ => false

/-- Is the value finite (neither NaN nor an infinity)? -/
def isFinite : FVal → Bool
  | .fin _ => true
  | _ => false

/-- Is the value inside the specification's data model, i.e. a real number or
a missing (NaN) entry — not an infinity? -/
def isData : FVal → Bool
  | .pinf => false
  | .ninf => false
  | _ => true

end FVal

/-- NaN entries act as zero in `np.nansum`. -/
def zeroIfNan (v : FVal) : FVal := if v.isNan then FVal.fin 0 else v

/-- `np.nansum`: the sum of a sequence with NaN entries treated as zero.
(The summation order is irrelevant: `FVal.add` is commutative and
associative, which is proved below and used for the order-independence
claim.) -/
def nansum (l : List FVal) : FVal := (l.map zeroIfNan).foldl FVal.add (FVal.fin 0)

/-!
`linregress_with_errors` from `samples/wlr.py`, line by line.  Each
intermediate variable of the source becomes a definition; the branch
`if w <= 0: w = 0; xm = x2m = ym = xym = 0` is reflected in the guard of each
of the five quantities it assigns.
-/

/-- `l_w = l_y_err ** -2`. -/
def weightList (l_y_err : List FVal) : List FVal := l_y_err.map FVal.powNegTwo

/-- `w = np.nansum(l_w)`, before the degenerate-weight branch. -/
def wRaw (l_y_err : List FVal) : FVal := nansum (weightList l_y_err)

/-- `w` after the degenerate-weight branch (`if w <= 0: w = 0`). -/
def wVal (l_y_err : List FVal) : FVal :=
  if (wRaw l_y_err).leB (FVal.fin 0) then FVal.fin 0 else wRaw l_y_err

/-- `xm`: 0 in the degenerate-weight branch, else `np.nansum(l_x * l_w) / w`. -/
def xmVal (l_x l_y_err : List FVal) : FVal :=
  if (wRaw l_y_err).leB (FVal.fin 0) then FVal.fin 0
  else (nansum (List.zipWith FVal.mul l_x (weightList l_y_err))).div (wRaw l_y_err)

/-- `x2m`: 0 in the degenerate-weight branch, else
`np.nansum(l_x ** 2 * l_w) / w`. -/
def x2mVal (l_x l_y_err : List FVal) : FVal :=
  if (wRaw l_y_err).leB (FVal.fin 0) then FVal.fin 0
  else (nansum (List.zipWith FVal.mul (l_x.map (fun v => FVal.mul v v))
    (weightList l_y_err))).div (wRaw l_y_err)

/-- `ym`: 0 in the degenerate-weight branch, else `np.nansum(l_y * l_w) / w`. -/
def ymVal (l_y l_y_err : List FVal) : FVal :=
  if (wRaw l_y_err).leB (FVal.fin 0) then FVal.fin 0
  else (nansum (List.zipWith FVal.mul l_y (weightList l_y_err))).div (wRaw l_y_err)

/-- `xym`: 0 in the degenerate-weight branch, else
`np.nansum(l_x * l_y * l_w) / w`. -/
def xymVal (l_x l_y l_y_err : List FVal) : FVal :=
  if (wRaw l_y_err).leB (FVal.fin 0) then FVal.fin 0
  else (nansum (List.zipWith FVal.mul (List.zipWith FVal.mul l_x l_y)
    (weightList l_y_err))).div (wRaw l_y_err)

/-- `dx2m = x2m - xm ** 2`. -/
def dx2mVal (l_x l_y_err : List FVal) : FVal :=
  FVal.sub (x2mVal l_x l_y_err) (FVal.mul (xmVal l_x l_y_err) (xmVal l_x l_y_err))

/-- `dxym = xym - xm * ym`. -/
def dxymVal (l_x l_y l_y_err : List FVal) : FVal :=
  FVal.sub (xymVal l_x l_y l_y_err)
    (FVal.mul (xmVal l_x l_y_err) (ymVal l_y l_y_err))

/-- `slope`: `np.inf` when `not (dx2m > 0)`, else `dxym / dx2m`. -/
def slopeVal (l_x l_y l_y_err : List FVal) : FVal :=
  if !((dx2mVal l_x l_y_err).gtB (FVal.fin 0)) then FVal.pinf
  else (dxymVal l_x l_y l_y_err).div (dx2mVal l_x l_y_err)

/-- `intercept`: `np.nan` when `not (dx2m > 0)`, else `ym - xm * slope`. -/
def interceptVal (l_x l_y l_y_err : List FVal) : FVal :=
  if !((dx2mVal l_x l_y_err).gtB (FVal.fin 0)) then FVal.nan
  else FVal.sub (ymVal l_y l_y_err)
    (FVal.mul (xmVal l_x l_y_err)
      ((dxymVal l_x l_y l_y_err).div (dx2mVal l_x l_y_err)))

/-- `slope_err`: `np.inf` when `dx2m <= 0 or w == 0`, else
`np.sqrt(1. / (w * dx2m))`. -/
def slopeErrVal (l_x l_y_err : List FVal) : FVal :=
  if (dx2mVal l_x l_y_err).leB (FVal.fin 0) || (wVal l_y_err).eqB (FVal.fin 0)
  then FVal.pinf
  else FVal.sqrt ((FVal.fin 1).div ((wVal l_y_err).mul (dx2mVal l_x l_y_err)))

/-- `intercept_err`: `np.nan` when `dx2m <= 0 or w == 0`, else
`np.sqrt((1.0 + xm ** 2 / dx2m) / w)`. -/
def interceptErrVal (l_x l_y_err : List FVal) : FVal :=
  if (dx2mVal l_x l_y_err).leB (FVal.fin 0) || (wVal l_y_err).eqB (FVal.fin 0)
  then FVal.nan
  else FVal.sqrt (((FVal.fin 1).add
    (((xmVal l_x l_y_err).mul (xmVal l_x l_y_err)).div (dx2mVal l_x l_y_err))).div
      (wVal l_y_err))

/-- `slope_intercept_covar`: `np.nan` when `dx2m <= 0 or w == 0`, else
`-xm / (w * dx2m)`. -/
def covarVal (l_x l_y_err : List FVal) : FVal :=
  if (dx2mVal l_x l_y_err).leB (FVal.fin 0) || (wVal l_y_err).eqB (FVal.fin 0)
  then FVal.nan
  else ((xmVal l_x l_y_err).neg).div ((wVal l_y_err).mul (dx2mVal l_x l_y_err))

/-- The `LinregressResults` dataclass of `samples/wlr.py`. -/
structure LinregressResults where
  slope : FVal
  intercept : FVal
  slope_err : FVal
  intercept_err : FVal
  slope_intercept_covar : FVal
deriving DecidableEq, Repr

/-- `linregress_with_errors(l_x, l_y, l_y_err)` from `samples/wlr.py`. -/
def linregress_with_errors (l_x l_y l_y_err : List FVal) : LinregressResults :=
  { slope := slopeVal l_x l_y l_y_err
    intercept := interceptVal l_x l_y l_y_err
    slope_err := slopeErrVal l_x l_y_err
    intercept_err := interceptErrVal l_x l_y_err
    slope_intercept_covar := covarVal l_x l_y_err }

/-!
The AiiDA calculation-function primitives of
`calc_functions/wlr_functions.py`.  A scalar inside the workflow body is
either an AiiDA `Float` node (the value returned by a calculation function,
carrying a `.value` attribute) or a plain Python float/int (the literal
`np.inf`, `np.nan`, `0` and `1.` assignments), which has no `.value`.
`AVal` records this distinction.  Calculation functions auto-serialize plain
Python numbers passed as inputs and always return nodes, so each `cf`
primitive reads the numeric content of its arguments and produces a node;
comparisons (`<=`, `>`, `==`) act on the numeric content for nodes and plain
floats alike.  Arrays stay plain lists of numeric values: the
`ArrayData`/`.get_array()` round trip has no failing path here.
`a_multiply` is used in the workflow with two and with three arguments, so
both arities are embedded (`a_multiply3` is the three-argument call,
accumulating left to right as the Python loop does).
-/

/-- A scalar of the workflow body: an AiiDA node or a plain Python number. -/
inductive AVal where
  | node : FVal → AVal
  | plain : FVal → AVal
deriving DecidableEq, Repr

/-- Numeric content of a workflow scalar, as used by arithmetic (after
auto-serialization) and by comparisons. -/
def AVal.val : AVal → FVal
  | .node v => v
  | .plain v => v

/-- The `.value` attribute access: succeeds on a node, raises
`AttributeError` on a plain Python float — modelled as `none`. -/
def AVal.value : AVal → Option FVal
  | .node v => some v
  | .plain _ => none

namespace cf

/-- `add(x, y)`. -/
def add (x y : AVal) : AVal := .node (FVal.add x.val y.val)

/-- `subtract(x, y)`. -/
def subtract (x y : AVal) : AVal := .node (FVal.sub x.val y.val)

/-- `multiply(x, y)`. -/
def multiply (x y : AVal) : AVal := .node (FVal.mul x.val y.val)

/-- `divide(x, y)`. -/
def divide (x y : AVal) : AVal := .node (FVal.div x.val y.val)

/-- `square(x) = x ** 2`. -/
def square (x : AVal) : AVal := .node (FVal.mul x.val x.val)

/-- `sqrt(x) = np.sqrt(x.value)`. -/
def sqrt (x : AVal) : AVal := .node (FVal.sqrt x.val)

/-- `sum_array(l_x) = np.nansum(l_x.get_array())`. -/
def sum_array (l_x : List FVal) : AVal := .node (nansum l_x)

/-- `get_weights_from_errors(l_y_err) = np.power(l_y_err, -2)`. -/
def get_weights_from_errors (l_y_err : List FVal) : List FVal :=
  l_y_err.map FVal.powNegTwo

/-- `a_multiply(l_x, l_y)`, elementwise product. -/
def a_multiply (l_x l_y : List FVal) : List FVal := List.zipWith FVal.mul l_x l_y

/-- `a_multiply(l_x, l_y, l_w)`, elementwise product of three arrays. -/
def a_multiply3 (l_x l_y l_w : List FVal) : List FVal :=
  List.zipWith FVal.mul (List.zipWith FVal.mul l_x l_y) l_w

/-- `a_square(l_x)`, elementwise square. -/
def a_square (l_x : List FVal) : List FVal := l_x.map (fun v => FVal.mul v v)

end cf

/-- `wf_linregress_with_errors(l_x, l_y, l_y_err)` from
`calc_functions/wlr_functions.py`, chaining the `cf` primitives exactly as
the source does.  The degenerate branches assign plain Python floats
(`np.inf`, `np.nan`, `0`), so the `.value` accesses building the returned
`Dict` raise `AttributeError` there; the model returns `none` for that
raised exception and `some` of the five-field record otherwise.  (`-xm` and
the literal `1.` are consumed by `divide`/`add`, which read only the numeric
content, so their nodehood is irrelevant; they are modelled as plain, which
is what the source has for `1.` and what never reaches a `.value` access for
`-xm`.) -/
def wf_linregress_with_errors (l_x l_y l_y_err : List FVal) :
    Option LinregressResults :=
  let l_w := cf.get_weights_from_errors l_y_err
  let w0 := cf.sum_array l_w
  let w := if w0.val.leB (FVal.fin 0) then AVal.plain (FVal.fin 0) else w0
  let xm := if w0.val.leB (FVal.fin 0) then AVal.plain (FVal.fin 0)
    else cf.divide (cf.sum_array (cf.a_multiply l_x l_w)) w0
  let x2m := if w0.val.leB (FVal.fin 0) then AVal.plain (FVal.fin 0)
    else cf.divide (cf.sum_array (cf.a_multiply (cf.a_square l_x) l_w)) w0
  let ym := if w0.val.leB (FVal.fin 0) then AVal.plain (FVal.fin 0)
    else cf.divide (cf.sum_array (cf.a_multiply l_y l_w)) w0
  let xym := if w0.val.leB (FVal.fin 0) then AVal.plain (FVal.fin 0)
    else cf.divide (cf.sum_array (cf.a_multiply3 l_x l_y l_w)) w0
  let dx2m := cf.subtract x2m (cf.square xm)
  let dxym := cf.subtract xym (cf.multiply xm ym)
  let slope := if !(dx2m.val.gtB (FVal.fin 0)) then AVal.plain FVal.pinf
    else cf.divide dxym dx2m
  let intercept := if !(dx2m.val.gtB (FVal.fin 0)) then AVal.plain FVal.nan
    else cf.subtract ym (cf.multiply xm slope)
  let slope_err := if dx2m.val.leB (FVal.fin 0) || w.val.eqB (FVal.fin 0)
    then AVal.plain FVal.pinf
    else cf.sqrt (cf.divide (AVal.plain (FVal.fin 1)) (cf.multiply w dx2m))
  let intercept_err := if dx2m.val.leB (FVal.fin 0) || w.val.eqB (FVal.fin 0)
    then AVal.plain FVal.nan
    else cf.sqrt (cf.divide
      (cf.add (AVal.plain (FVal.fin 1)) (cf.divide (cf.square xm) dx2m)) w)
  let slope_intercept_covar := if dx2m.val.leB (FVal.fin 0) || w.val.eqB (FVal.fin 0)
    then AVal.plain FVal.nan
    else cf.divide (AVal.plain (FVal.neg xm.val)) (cf.multiply w dx2m)
  slope.value.bind fun a =>
    intercept.value.bind fun b =>
      slope_err.value.bind fun c =>
        intercept_err.value.bind fun d =>
          slope_intercept_covar.value.bind fun e =>
            some { slope := a, intercept := b, slope_err := c,
                   intercept_err := d, slope_intercept_covar := e }

/-- A value that is finite or NaN — what an entry of the specification's data
model (a real number or a missing value) can be. -/
def FVal.FinOrNan (v : FVal) : Prop := v = FVal.nan ∨ ∃ q, v = FVal.fin q

/-- A non-NaN, non-negative value: +infinity or a finite value `>= 0`.
The inverse-variance weights and their running sums are of this shape. -/
def FVal.NNF (v : FVal) : Prop := v = FVal.pinf ∨ ∃ q, v = FVal.fin q ∧ 0 ≤ q

/-- Non-negative up to NaN: NaN, +infinity, or a finite value `>= 0`. -/
def FVal.NN (v : FVal) : Prop := v = FVal.nan ∨ v.NNF

/-!
Spec-side formulas for claim C1, named `spec.*`: the weighted means, variance
terms and outputs exactly as the claim states them (`w_i = y_err_i ** -2`,
`W = nansum w`, `xm = nansum(x*w)/W`, ..., with no degenerate branch).  These
follow the claim's words; the claim theorem compares them with the source
embedding above.
-/

namespace spec

/-- NaN-tolerant sum of `x*w` divided by `W`. -/
def xm (l_x l_y_err : List FVal) : FVal :=
  (nansum (List.zipWith FVal.mul l_x (weightList l_y_err))).div (wRaw l_y_err)

/-- NaN-tolerant sum of `x^2*w` divided by `W`. -/
def x2m (l_x l_y_err : List FVal) : FVal :=
  (nansum (List.zipWith FVal.mul (l_x.map (fun v => FVal.mul v v))
    (weightList l_y_err))).div (wRaw l_y_err)

/-- NaN-tolerant sum of `y*w` divided by `W`. -/
def ym (l_y l_y_err : List FVal) : FVal :=
  (nansum (List.zipWith FVal.mul l_y (weightList l_y_err))).div (wRaw l_y_err)

/-- NaN-tolerant sum of `x*y*w` divided by `W`. -/
def xym (l_x l_y l_y_err : List FVal) : FVal :=
  (nansum (List.zipWith FVal.mul (List.zipWith FVal.mul l_x l_y)
    (weightList l_y_err))).div (wRaw l_y_err)

/-- `dx2m = x2m - xm^2`, the weighted variance. -/
def dx2m (l_x l_y_err : List FVal) : FVal :=
  FVal.sub (x2m l_x l_y_err) (FVal.mul (xm l_x l_y_err) (xm l_x l_y_err))

/-- `dxym = xym - xm*ym`, the weighted covariance. -/
def dxym (l_x l_y l_y_err : List FVal) : FVal :=
  FVal.sub (xym l_x l_y l_y_err) (FVal.mul (xm l_x l_y_err) (ym l_y l_y_err))

/-- `slope = dxym / dx2m`. -/
def slope (l_x l_y l_y_err : List FVal) : FVal :=
  (dxym l_x l_y l_y_err).div (dx2m l_x l_y_err)

/-- `intercept = ym - xm * slope`. -/
def intercept (l_x l_y l_y_err : List FVal) : FVal :=
  FVal.sub (ym l_y l_y_err) ((xm l_x l_y_err).mul (slope l_x l_y l_y_err))

/-- `slope_err = sqrt(1 / (W * dx2m))`. -/
def slope_err (l_x l_y_err : List FVal) : FVal :=
  FVal.sqrt ((FVal.fin 1).div ((wRaw l_y_err).mul (dx2m l_x l_y_err)))

/-- `intercept_err = sqrt((1 + xm^2 / dx2m) / W)`. -/
def intercept_err (l_x l_y_err : List FVal) : FVal :=
  FVal.sqrt (((FVal.fin 1).add
    (((xm l_x l_y_err).mul (xm l_x l_y_err)).div (dx2m l_x l_y_err))).div
      (wRaw l_y_err))

/-- `slope_intercept_covar = -xm / (W * dx2m)`. -/
def slope_intercept_covar (l_x l_y_err : List FVal) : FVal :=
  ((xm l_x l_y_err).neg).div ((wRaw l_y_err).mul (dx2m l_x l_y_err))

end spec

/-! Basic algebra of the embedded IEEE operations. -/

lemma fadd_comm (a b : FVal) : FVal.add a b = FVal.add b a := by
  cases a <;> cases b <;> simp [FVal.add] <;> ring

lemma fadd_assoc (a b c : FVal) : FVal.add (FVal.add a b) c = FVal.add a (FVal.add b c) := by
  cases a <;> cases b <;> cases c <;> simp [FVal.add] <;> ring

lemma fadd_right_comm (a b c : FVal) :
    FVal.add (FVal.add a b) c = FVal.add (FVal.add a c) b := by
  rw [fadd_assoc, fadd_assoc, fadd_comm b c]

/-- `nansum` is invariant under permutation of its list: `FVal.add` is
commutative and associative. -/
lemma nansum_perm {l₁ l₂ : List FVal} (h : l₁.Perm l₂) : nansum l₁ = nansum l₂ := by
  unfold nansum
  exact (h.map zeroIfNan).foldl_eq' (fun x _ y _ z => fadd_right_comm z x y) _

/-! Comparison-with-zero characterisations. -/

lemma gtB0_iff (v : FVal) :
    v.gtB (FVal.fin 0) = true ↔ v = FVal.pinf ∨ ∃ q, v = FVal.fin q ∧ 0 < q := by
  cases v <;> simp [FVal.gtB, FVal.ltB]

lemma leB0_iff (v : FVal) :
    v.leB (FVal.fin 0) = true ↔ v = FVal.ninf ∨ ∃ q, v = FVal.fin q ∧ q ≤ 0 := by
  cases v <;> simp [FVal.leB]

lemma eqB0_iff (v : FVal) : v.eqB (FVal.fin 0) = true ↔ v = FVal.fin 0 := by
  cases v <;> simp [FVal.eqB]

lemma leB0_false_of_gtB0 {v : FVal} (h : v.gtB (FVal.fin 0) = true) :
    v.leB (FVal.fin 0) = false := by
  rcases (gtB0_iff v).mp h with rfl | ⟨q, rfl, hq⟩
  · simp [FVal.leB]
  · simp [FVal.leB]; linarith

lemma gtB0_false_of_leB0 {v : FVal} (h : v.leB (FVal.fin 0) = true) :
    v.gtB (FVal.fin 0) = false := by
  rcases (leB0_iff v).mp h with rfl | ⟨q, rfl, hq⟩
  · simp [FVal.gtB, FVal.ltB]
  · simp [FVal.gtB, FVal.ltB]; linarith

lemma eqB0_false_of_gtB0 {v : FVal} (h : v.gtB (FVal.fin 0) = true) :
    v.eqB (FVal.fin 0) = false := by
  rcases (gtB0_iff v).mp h with rfl | ⟨q, rfl, hq⟩
  · simp [FVal.eqB]
  · simp [FVal.eqB]; exact ne_of_gt hq

/-- C1: with positive total weight and positive weighted variance, the
regression returns exactly the claim's closed-form formulas, with the
weighted means the NaN-tolerant sums divided by `W`. -/
theorem linregress_matches_spec_formulas (l_x l_y l_y_err : List FVal)
    (hlen : l_x.length = l_y.length ∧ l_y.length = l_y_err.length)
    (hW : (wRaw l_y_err).gtB (FVal.fin 0) = true)
    (hD : (spec.dx2m l_x l_y_err).gtB (FVal.fin 0) = true) :
    linregress_with_errors l_x l_y l_y_err =
      { slope := spec.slope l_x l_y l_y_err
        intercept := spec.intercept l_x l_y l_y_err
        slope_err := spec.slope_err l_x l_y_err
        intercept_err := spec.intercept_err l_x l_y_err
        slope_intercept_covar := spec.slope_intercept_covar l_x l_y_err } := by
  have hle := leB0_false_of_gtB0 hW
  have heq := eqB0_false_of_gtB0 hW
  have hxm : xmVal l_x l_y_err = spec.xm l_x l_y_err := by simp [xmVal, spec.xm, hle]
  have hx2m : x2mVal l_x l_y_err = spec.x2m l_x l_y_err := by simp [x2mVal, spec.x2m, hle]
  have hym : ymVal l_y l_y_err = spec.ym l_y l_y_err := by simp [ymVal, spec.ym, hle]
  have hxym : xymVal l_x l_y l_y_err = spec.xym l_x l_y l_y_err := by
    simp [xymVal, spec.xym, hle]
  have hw : wVal l_y_err = wRaw l_y_err := by simp [wVal, hle]
  have hdx : dx2mVal l_x l_y_err = spec.dx2m l_x l_y_err := by
    simp [dx2mVal, spec.dx2m, hxm, hx2m]
  have hdxy : dxymVal l_x l_y l_y_err = spec.dxym l_x l_y l_y_err := by
    simp [dxymVal, spec.dxym, hxm, hym, hxym]
  simp [linregress_with_errors, slopeVal, interceptVal, slopeErrVal, interceptErrVal,
    covarVal, hw, heq, hdx, hdxy, hxm, hym, hD, leB0_false_of_gtB0 hD, spec.slope,
    spec.intercept, spec.slope_err, spec.intercept_err, spec.slope_intercept_covar]

/-- C1 witness at `x=[0,1]`, `y=[0,1]`, `y_err=[1,1]` (`W=2`, `dx2m=1/4`). -/
theorem linregress_matches_spec_formulas_witness :
    ((wRaw [FVal.fin 1, FVal.fin 1]).gtB (FVal.fin 0) = true ∧
      (spec.dx2m [FVal.fin 0, FVal.fin 1] [FVal.fin 1, FVal.fin 1]).gtB (FVal.fin 0) = true) ∧
    linregress_with_errors [FVal.fin 0, FVal.fin 1] [FVal.fin 0, FVal.fin 1]
        [FVal.fin 1, FVal.fin 1] =
      { slope := spec.slope [FVal.fin 0, FVal.fin 1] [FVal.fin 0, FVal.fin 1]
          [FVal.fin 1, FVal.fin 1]
        intercept := spec.intercept [FVal.fin 0, FVal.fin 1] [FVal.fin 0, FVal.fin 1]
          [FVal.fin 1, FVal.fin 1]
        slope_err := spec.slope_err [FVal.fin 0, FVal.fin 1] [FVal.fin 1, FVal.fin 1]
        intercept_err := spec.intercept_err [FVal.fin 0, FVal.fin 1] [FVal.fin 1, FVal.fin 1]
        slope_intercept_covar := spec.slope_intercept_covar [FVal.fin 0, FVal.fin 1]
          [FVal.fin 1, FVal.fin 1] } :=
  ⟨⟨by norm_num [wRaw, weightList, nansum, zeroIfNan, FVal.powNegTwo, FVal.mul, FVal.div,
      FVal.add, FVal.isNan, FVal.gtB, FVal.ltB],
    by norm_num [spec.dx2m, spec.x2m, spec.xm, wRaw, weightList, nansum, zeroIfNan,
      FVal.powNegTwo, FVal.mul, FVal.div, FVal.add, FVal.sub, FVal.neg, FVal.isNan,
      FVal.gtB, FVal.ltB]⟩,
    linregress_matches_spec_formulas _ _ _ ⟨rfl, rfl⟩
      (by norm_num [wRaw, weightList, nansum, zeroIfNan, FVal.powNegTwo, FVal.mul, FVal.div,
        FVal.add, FVal.isNan, FVal.gtB, FVal.ltB])
      (by norm_num [spec.dx2m, spec.x2m, spec.xm, wRaw, weightList, nansum, zeroIfNan,
        FVal.powNegTwo, FVal.mul, FVal.div, FVal.add, FVal.sub, FVal.neg, FVal.isNan,
        FVal.gtB, FVal.ltB])⟩

/-- C2: whenever `dx2m <= 0` the slope is +infinity and the intercept NaN;
whenever `dx2m <= 0` or the total weight is 0, the error and covariance
fields are the sentinels +infinity, NaN, NaN. -/
theorem degenerate_branches_sentinels (l_x l_y l_y_err : List FVal) :
    ((dx2mVal l_x l_y_err).leB (FVal.fin 0) = true →
      (linregress_with_errors l_x l_y l_y_err).slope = FVal.pinf ∧
      (linregress_with_errors l_x l_y l_y_err).intercept = FVal.nan) ∧
    ((dx2mVal l_x l_y_err).leB (FVal.fin 0) = true ∨ wRaw l_y_err = FVal.fin 0 →
      (linregress_with_errors l_x l_y l_y_err).slope_err = FVal.pinf ∧
      (linregress_with_errors l_x l_y l_y_err).intercept_err = FVal.nan ∧
      (linregress_with_errors l_x l_y l_y_err).slope_intercept_covar = FVal.nan) := by
  constructor
  · intro h
    simp [linregress_with_errors, slopeVal, interceptVal, gtB0_false_of_leB0 h]
  · intro h
    rcases h with h | h
    · simp [linregress_with_errors, slopeErrVal, interceptErrVal, covarVal, h]
    · have hv : (wVal l_y_err).eqB (FVal.fin 0) = true := by
        simp [wVal, h, FVal.leB, FVal.eqB]
      simp [linregress_with_errors, slopeErrVal, interceptErrVal, covarVal, hv]

/-- C2 witness at `x=[1,1]`, `y=[0,1]`, `y_err=[1,1]`: all `x` identical, so
`dx2m = 0 <= 0`, and the sentinel fields appear. -/
theorem degenerate_branches_sentinels_witness :
    (dx2mVal [FVal.fin 1, FVal.fin 1] [FVal.fin 1, FVal.fin 1]).leB (FVal.fin 0) = true ∧
    ((linregress_with_errors [FVal.fin 1, FVal.fin 1] [FVal.fin 0, FVal.fin 1]
        [FVal.fin 1, FVal.fin 1]).slope = FVal.pinf ∧
      (linregress_with_errors [FVal.fin 1, FVal.fin 1] [FVal.fin 0, FVal.fin 1]
        [FVal.fin 1, FVal.fin 1]).intercept = FVal.nan) ∧
    ((linregress_with_errors [FVal.fin 1, FVal.fin 1] [FVal.fin 0, FVal.fin 1]
        [FVal.fin 1, FVal.fin 1]).slope_err = FVal.pinf ∧
      (linregress_with_errors [FVal.fin 1, FVal.fin 1] [FVal.fin 0, FVal.fin 1]
        [FVal.fin 1, FVal.fin 1]).intercept_err = FVal.nan ∧
      (linregress_with_errors [FVal.fin 1, FVal.fin 1] [FVal.fin 0, FVal.fin 1]
        [FVal.fin 1, FVal.fin 1]).slope_intercept_covar = FVal.nan) := by
  have hd : (dx2mVal [FVal.fin 1, FVal.fin 1] [FVal.fin 1, FVal.fin 1]).leB
      (FVal.fin 0) = true := by
    norm_num [dx2mVal, x2mVal, xmVal, wRaw, weightList, nansum, zeroIfNan,
      FVal.powNegTwo, FVal.mul, FVal.div, FVal.add, FVal.sub, FVal.neg, FVal.isNan,
      FVal.leB]
  exact ⟨hd,
    (degenerate_branches_sentinels [FVal.fin 1, FVal.fin 1] [FVal.fin 0, FVal.fin 1]
      [FVal.fin 1, FVal.fin 1]).1 hd,
    (degenerate_branches_sentinels [FVal.fin 1, FVal.fin 1] [FVal.fin 0, FVal.fin 1]
      [FVal.fin 1, FVal.fin 1]).2 (Or.inl hd)⟩

/-- C7: with total weight `W <= 0`, `w` is reset to 0, all four weighted
means are 0, `dx2m = 0`, and the full sentinel record is returned. -/
theorem degenerate_weight_all_sentinels (l_x l_y l_y_err : List FVal)
    (h : (wRaw l_y_err).leB (FVal.fin 0) = true) :
    wVal l_y_err = FVal.fin 0 ∧ xmVal l_x l_y_err = FVal.fin 0 ∧
    x2mVal l_x l_y_err = FVal.fin 0 ∧ ymVal l_y l_y_err = FVal.fin 0 ∧
    xymVal l_x l_y l_y_err = FVal.fin 0 ∧ dx2mVal l_x l_y_err = FVal.fin 0 ∧
    linregress_with_errors l_x l_y l_y_err =
      { slope := FVal.pinf, intercept := FVal.nan, slope_err := FVal.pinf,
        intercept_err := FVal.nan, slope_intercept_covar := FVal.nan } := by
  have h0 : dx2mVal l_x l_y_err = FVal.fin 0 := by
    norm_num [dx2mVal, x2mVal, xmVal, h, FVal.sub, FVal.mul, FVal.neg, FVal.add]
  refine ⟨by simp [wVal, h], by simp [xmVal, h], by simp [x2mVal, h],
    by simp [ymVal, h], by simp [xymVal, h], h0, ?_⟩
  norm_num [linregress_with_errors, slopeVal, interceptVal, slopeErrVal, interceptErrVal,
    covarVal, h0, wVal, h, FVal.gtB, FVal.ltB, FVal.leB, FVal.eqB]

/-- C7 witness: empty input has `W = 0 <= 0` and yields the sentinel record. -/
theorem degenerate_weight_all_sentinels_witness :
    (wRaw ([] : List FVal)).leB (FVal.fin 0) = true ∧
    (wVal ([] : List FVal) = FVal.fin 0 ∧ xmVal [] [] = FVal.fin 0 ∧
      x2mVal [] [] = FVal.fin 0 ∧ ymVal [] [] = FVal.fin 0 ∧
      xymVal [] [] [] = FVal.fin 0 ∧ dx2mVal [] [] = FVal.fin 0 ∧
      linregress_with_errors [] [] [] =
        { slope := FVal.pinf, intercept := FVal.nan, slope_err := FVal.pinf,
          intercept_err := FVal.nan, slope_intercept_covar := FVal.nan }) := by
  have h : (wRaw ([] : List FVal)).leB (FVal.fin 0) = true := by
    norm_num [wRaw, weightList, nansum, FVal.leB]
  exact ⟨h, degenerate_weight_all_sentinels [] [] [] h⟩

lemma AVal_val_node (v : FVal) : (AVal.node v).val = v := rfl

lemma AVal_val_plain (v : FVal) : (AVal.plain v).val = v := rfl

lemma AVal_value_node (v : FVal) : (AVal.node v).value = some v := rfl

lemma AVal_value_plain (v : FVal) : (AVal.plain v).value = none := rfl

/-- C4 counterexample: on the constant-`x` input `x=[1,1]`, `y=[0,1]`,
`y_err=[1,1]` the plain implementation returns the sentinel record, but in
the workflow implementation `slope`, `intercept` and the error fields are
plain Python floats (`np.inf`, `np.nan`), so the `.value` accesses building
the returned `Dict` raise `AttributeError`: the workflow returns no values
at all, hence not the same five values. -/
theorem wf_linregress_raises_on_degenerate :
    wf_linregress_with_errors [FVal.fin 1, FVal.fin 1] [FVal.fin 0, FVal.fin 1]
      [FVal.fin 1, FVal.fin 1] = none ∧
    linregress_with_errors [FVal.fin 1, FVal.fin 1] [FVal.fin 0, FVal.fin 1]
      [FVal.fin 1, FVal.fin 1] =
      { slope := FVal.pinf, intercept := FVal.nan, slope_err := FVal.pinf,
        intercept_err := FVal.nan, slope_intercept_covar := FVal.nan } := by
  constructor
  · norm_num [wf_linregress_with_errors, cf.get_weights_from_errors, cf.sum_array,
      cf.divide, cf.a_multiply, cf.a_multiply3, cf.a_square, cf.subtract, cf.square,
      cf.multiply, cf.add, cf.sqrt, AVal.val, AVal.value, nansum, zeroIfNan,
      FVal.powNegTwo, FVal.mul, FVal.div, FVal.add, FVal.sub, FVal.neg, FVal.sqrt,
      FVal.isNan, FVal.gtB, FVal.ltB, FVal.leB, FVal.eqB, Option.bind]
  · norm_num [linregress_with_errors, slopeVal, interceptVal, slopeErrVal,
      interceptErrVal, covarVal, dx2mVal, dxymVal, xmVal, x2mVal, ymVal, xymVal, wVal,
      wRaw, weightList, nansum, zeroIfNan, FVal.powNegTwo, FVal.mul, FVal.div, FVal.add,
      FVal.sub, FVal.neg, FVal.sqrt, FVal.isNan, FVal.gtB, FVal.ltB, FVal.leB, FVal.eqB]

/-- C4 (amended): the workflow implementation returns the same five values
as the plain implementation exactly on the normal branch (`dx2m > 0` and
`w` nonzero); on every degenerate input its `.value` unwrapping raises
`AttributeError` (modelled as `none`) instead of returning. -/
theorem wf_linregress_eq_on_normal (l_x l_y l_y_err : List FVal) :
    wf_linregress_with_errors l_x l_y l_y_err =
      (if (dx2mVal l_x l_y_err).gtB (FVal.fin 0) &&
          !((wVal l_y_err).eqB (FVal.fin 0))
        then some (linregress_with_errors l_x l_y l_y_err)
        else none) := by
  rcases Bool.eq_false_or_eq_true ((dx2mVal l_x l_y_err).gtB (FVal.fin 0)) with hg | hg
  · have hle := leB0_false_of_gtB0 hg
    rcases Bool.eq_false_or_eq_true ((wVal l_y_err).eqB (FVal.fin 0)) with he | he <;>
    · simp [dx2mVal, x2mVal, xmVal, wVal, wRaw, weightList] at hg hle he
      simp [wf_linregress_with_errors, linregress_with_errors, cf.get_weights_from_errors,
        cf.sum_array, cf.divide, cf.a_multiply, cf.a_multiply3, cf.a_square, cf.subtract,
        cf.square, cf.multiply, cf.add, cf.sqrt, AVal_val_node, AVal_val_plain, AVal_value_node,
        AVal_value_plain, apply_ite AVal.val, apply_ite AVal.value, hg, hle, he, slopeVal,
        interceptVal, slopeErrVal, interceptErrVal, covarVal, dx2mVal, dxymVal, xmVal, x2mVal,
        ymVal, xymVal, wVal, wRaw, weightList]
  · simp [dx2mVal, x2mVal, xmVal, wVal, wRaw, weightList] at hg
    simp [wf_linregress_with_errors, linregress_with_errors, cf.get_weights_from_errors,
      cf.sum_array, cf.divide, cf.a_multiply, cf.a_multiply3, cf.a_square, cf.subtract,
      cf.square, cf.multiply, cf.add, cf.sqrt, AVal_val_node, AVal_val_plain, AVal_value_node,
      AVal_value_plain, apply_ite AVal.val, apply_ite AVal.value, hg, slopeVal, interceptVal,
      slopeErrVal, interceptErrVal, covarVal, dx2mVal, dxymVal, xmVal, x2mVal, ymVal, xymVal,
      wVal, wRaw, weightList]

/-- Zipping two maps of one list is a single map over that list. -/
lemma zipWith_map_same {α : Type} (f : FVal → FVal → FVal) (g h : α → FVal) :
    ∀ l : List α, List.zipWith f (l.map g) (l.map h) = l.map (fun a => f (g a) (h a))
  | [] => rfl
  | a :: t => by simp [zipWith_map_same f g h t]

/-- C8: co-permuting the three input sequences (stored as one list of
`(x, y, y_err)` triples) leaves the regression result unchanged — in the
exact arithmetic of the model, with no rounding, the equality is exact. -/
theorem regress_perm_invariant (l₁ l₂ : List (FVal × FVal × FVal)) (hp : l₁.Perm l₂) :
    linregress_with_errors (l₁.map fun t => t.1) (l₁.map fun t => t.2.1)
      (l₁.map fun t => t.2.2)
    = linregress_with_errors (l₂.map fun t => t.1) (l₂.map fun t => t.2.1)
      (l₂.map fun t => t.2.2) := by
  have hwl : ∀ l : List (FVal × FVal × FVal),
      weightList (l.map fun t => t.2.2) = l.map fun t => FVal.powNegTwo t.2.2 := by
    intro l; simp [weightList, List.map_map]
  have hw : wRaw (l₁.map fun t => t.2.2) = wRaw (l₂.map fun t => t.2.2) := by
    simp only [wRaw, hwl]; exact nansum_perm (hp.map _)
  have hsx : nansum (List.zipWith FVal.mul (l₁.map fun t => t.1)
        (weightList (l₁.map fun t => t.2.2)))
      = nansum (List.zipWith FVal.mul (l₂.map fun t => t.1)
        (weightList (l₂.map fun t => t.2.2))) := by
    simp only [hwl, zipWith_map_same]; exact nansum_perm (hp.map _)
  have hsx2 : nansum (List.zipWith FVal.mul
        ((l₁.map fun t => t.1).map (fun v => FVal.mul v v))
        (weightList (l₁.map fun t => t.2.2)))
      = nansum (List.zipWith FVal.mul
        ((l₂.map fun t => t.1).map (fun v => FVal.mul v v))
        (weightList (l₂.map fun t => t.2.2))) := by
    simp only [hwl, List.map_map]
    simp only [Function.comp_def, zipWith_map_same]
    exact nansum_perm (hp.map _)
  have hsy : nansum (List.zipWith FVal.mul (l₁.map fun t => t.2.1)
        (weightList (l₁.map fun t => t.2.2)))
      = nansum (List.zipWith FVal.mul (l₂.map fun t => t.2.1)
        (weightList (l₂.map fun t => t.2.2))) := by
    simp only [hwl, zipWith_map_same]; exact nansum_perm (hp.map _)
  have hsxy : nansum (List.zipWith FVal.mul
        (List.zipWith FVal.mul (l₁.map fun t => t.1) (l₁.map fun t => t.2.1))
        (weightList (l₁.map fun t => t.2.2)))
      = nansum (List.zipWith FVal.mul
        (List.zipWith FVal.mul (l₂.map fun t => t.1) (l₂.map fun t => t.2.1))
        (weightList (l₂.map fun t => t.2.2))) := by
    simp only [hwl, zipWith_map_same]; exact nansum_perm (hp.map _)
  simp only [linregress_with_errors, slopeVal, interceptVal, slopeErrVal, interceptErrVal,
    covarVal, dx2mVal, dxymVal, xmVal, x2mVal, ymVal, xymVal, wVal]
  rw [hw, hsx, hsx2, hsy, hsxy]

/-- C8 witness: swapping the two rows of a concrete sample leaves the result
unchanged. -/
theorem regress_perm_invariant_witness :
    ([(FVal.fin 0, FVal.fin 0, FVal.fin 1), (FVal.fin 1, FVal.fin 1, FVal.fin 2)] :
        List (FVal × FVal × FVal)).Perm
      [(FVal.fin 1, FVal.fin 1, FVal.fin 2), (FVal.fin 0, FVal.fin 0, FVal.fin 1)] ∧
    linregress_with_errors [FVal.fin 0, FVal.fin 1] [FVal.fin 0, FVal.fin 1]
        [FVal.fin 1, FVal.fin 2]
      = linregress_with_errors [FVal.fin 1, FVal.fin 0] [FVal.fin 1, FVal.fin 0]
        [FVal.fin 2, FVal.fin 1] := by
  have hp : ([(FVal.fin 0, FVal.fin 0, FVal.fin 1), (FVal.fin 1, FVal.fin 1, FVal.fin 2)] :
      List (FVal × FVal × FVal)).Perm
      [(FVal.fin 1, FVal.fin 1, FVal.fin 2), (FVal.fin 0, FVal.fin 0, FVal.fin 1)] :=
    List.Perm.swap _ _ _
  exact ⟨hp, regress_perm_invariant _ _ hp⟩

lemma fmul_comm (a b : FVal) : FVal.mul a b = FVal.mul b a := by
  cases a <;> cases b <;> simp [FVal.mul] <;> ring

/-- Replacing a NaN left factor by 0 does not change a product up to
NaN-as-zero: the NaN product and the zero (or `0 * inf = NaN`) product both
count as 0 in `nansum`. -/
lemma zeroIfNan_mul_left (a b : FVal) :
    zeroIfNan (FVal.mul a b) = zeroIfNan (FVal.mul (zeroIfNan a) b) := by
  cases a <;> cases b <;>
    simp [zeroIfNan, FVal.mul, FVal.isNan] <;>
    split_ifs <;> simp_all [zeroIfNan, FVal.isNan]

lemma zeroIfNan_mul_right (a b : FVal) :
    zeroIfNan (FVal.mul a b) = zeroIfNan (FVal.mul a (zeroIfNan b)) := by
  rw [fmul_comm a b, zeroIfNan_mul_left, fmul_comm]

lemma zeroIfNan_mul2 (a c : FVal) :
    zeroIfNan (FVal.mul a c) = zeroIfNan (FVal.mul (zeroIfNan a) (zeroIfNan c)) := by
  rw [zeroIfNan_mul_left, zeroIfNan_mul_right]

lemma zeroIfNan_mul3 (a c w : FVal) :
    zeroIfNan (FVal.mul (FVal.mul a c) w)
    = zeroIfNan (FVal.mul (FVal.mul (zeroIfNan a) (zeroIfNan c)) w) :=
  calc zeroIfNan (FVal.mul (FVal.mul a c) w)
      = zeroIfNan (FVal.mul (zeroIfNan (FVal.mul a c)) w) := zeroIfNan_mul_left _ _
    _ = zeroIfNan (FVal.mul (zeroIfNan (FVal.mul (zeroIfNan a) (zeroIfNan c))) w) :=
        congrArg (fun v => zeroIfNan (FVal.mul v w)) (zeroIfNan_mul2 a c)
    _ = zeroIfNan (FVal.mul (FVal.mul (zeroIfNan a) (zeroIfNan c)) w) :=
        (zeroIfNan_mul_left _ _).symm

lemma nansum_congr_zeroIfNan {l₁ l₂ : List FVal}
    (h : l₁.map zeroIfNan = l₂.map zeroIfNan) : nansum l₁ = nansum l₂ := by
  unfold nansum; rw [h]

lemma map_z_zip_mul_left : ∀ (l_x l_w : List FVal),
    (List.zipWith FVal.mul (l_x.map zeroIfNan) l_w).map zeroIfNan
    = (List.zipWith FVal.mul l_x l_w).map zeroIfNan
  | [], _ => rfl
  | _ :: _, [] => rfl
  | a :: t, b :: w => by
    simp only [List.map_cons, List.zipWith_cons_cons, map_z_zip_mul_left t w,
      List.map_cons]
    rw [← zeroIfNan_mul_left]

lemma map_z_zip_mul_sq : ∀ (l_x l_w : List FVal),
    (List.zipWith FVal.mul ((l_x.map zeroIfNan).map (fun v => FVal.mul v v)) l_w).map
      zeroIfNan
    = (List.zipWith FVal.mul (l_x.map (fun v => FVal.mul v v)) l_w).map zeroIfNan
  | [], _ => rfl
  | _ :: _, [] => rfl
  | a :: t, b :: w => by
    simp only [List.map_cons, List.zipWith_cons_cons, map_z_zip_mul_sq t w]
    rw [← zeroIfNan_mul3]

lemma map_z_zip_mul3 : ∀ (l_x l_y l_w : List FVal),
    (List.zipWith FVal.mul
      (List.zipWith FVal.mul (l_x.map zeroIfNan) (l_y.map zeroIfNan)) l_w).map zeroIfNan
    = (List.zipWith FVal.mul (List.zipWith FVal.mul l_x l_y) l_w).map zeroIfNan
  | [], _, _ => rfl
  | _ :: _, [], _ => rfl
  | _ :: _, _ :: _, [] => rfl
  | a :: t, c :: u, b :: w => by
    simp only [List.map_cons, List.zipWith_cons_cons, map_z_zip_mul3 t u w]
    rw [← zeroIfNan_mul3]

/-- C3 (amended): a NaN `x` or `y` entry behaves exactly as the value 0 in
every weighted sum it enters — its products drop out — while its row's
weight still counts toward `W`; hence the result equals the regression with
the NaN entries replaced by 0 (not the regression on the reduced point
set). -/
theorem regress_nan_entries_act_as_zero (l_x l_y l_y_err : List FVal) :
    linregress_with_errors (l_x.map zeroIfNan) (l_y.map zeroIfNan) l_y_err
    = linregress_with_errors l_x l_y l_y_err := by
  have hx : nansum (List.zipWith FVal.mul (l_x.map zeroIfNan) (weightList l_y_err))
      = nansum (List.zipWith FVal.mul l_x (weightList l_y_err)) :=
    nansum_congr_zeroIfNan (map_z_zip_mul_left _ _)
  have hx2 : nansum (List.zipWith FVal.mul
        ((l_x.map zeroIfNan).map (fun v => FVal.mul v v)) (weightList l_y_err))
      = nansum (List.zipWith FVal.mul (l_x.map (fun v => FVal.mul v v))
        (weightList l_y_err)) :=
    nansum_congr_zeroIfNan (map_z_zip_mul_sq _ _)
  have hy : nansum (List.zipWith FVal.mul (l_y.map zeroIfNan) (weightList l_y_err))
      = nansum (List.zipWith FVal.mul l_y (weightList l_y_err)) :=
    nansum_congr_zeroIfNan (map_z_zip_mul_left _ _)
  have hxy : nansum (List.zipWith FVal.mul
        (List.zipWith FVal.mul (l_x.map zeroIfNan) (l_y.map zeroIfNan))
        (weightList l_y_err))
      = nansum (List.zipWith FVal.mul (List.zipWith FVal.mul l_x l_y)
        (weightList l_y_err)) :=
    nansum_congr_zeroIfNan (map_z_zip_mul3 _ _ _)
  simp only [linregress_with_errors, slopeVal, interceptVal, slopeErrVal, interceptErrVal,
    covarVal, dx2mVal, dxymVal, xmVal, x2mVal, ymVal, xymVal, wVal]
  rw [hx, hx2, hy, hxy]

/-- C3 counterexample: on `x=[NaN,0,1]`, `y=[5,0,1]`, `y_err=[1,1,1]` both
the full input and the two non-NaN rows alone satisfy `W>0` and `dx2m>0`,
yet the result differs from regressing only the non-NaN points (slope
`-3/2` against `1`): the NaN row's weight still inflates `W`, so the row is
not dropped whole. -/
theorem regress_nan_row_not_dropped :
    ((wRaw [FVal.fin 1, FVal.fin 1, FVal.fin 1]).gtB (FVal.fin 0) = true ∧
      (dx2mVal [FVal.nan, FVal.fin 0, FVal.fin 1]
        [FVal.fin 1, FVal.fin 1, FVal.fin 1]).gtB (FVal.fin 0) = true) ∧
    ((wRaw [FVal.fin 1, FVal.fin 1]).gtB (FVal.fin 0) = true ∧
      (dx2mVal [FVal.fin 0, FVal.fin 1] [FVal.fin 1, FVal.fin 1]).gtB
        (FVal.fin 0) = true) ∧
    linregress_with_errors [FVal.nan, FVal.fin 0, FVal.fin 1]
        [FVal.fin 5, FVal.fin 0, FVal.fin 1] [FVal.fin 1, FVal.fin 1, FVal.fin 1]
      ≠ linregress_with_errors [FVal.fin 0, FVal.fin 1] [FVal.fin 0, FVal.fin 1]
        [FVal.fin 1, FVal.fin 1] := by
  refine ⟨⟨?_, ?_⟩, ⟨?_, ?_⟩, ?_⟩ <;>
    norm_num [linregress_with_errors, slopeVal, interceptVal, slopeErrVal, interceptErrVal,
      covarVal, dx2mVal, dxymVal, xmVal, x2mVal, ymVal, xymVal, wVal, wRaw, weightList,
      nansum, zeroIfNan, FVal.powNegTwo, FVal.mul, FVal.div, FVal.add, FVal.sub, FVal.neg,
      FVal.sqrt, FVal.isNan, FVal.gtB, FVal.ltB, FVal.leB, FVal.eqB]

/-- C5 (amended): with a zero-error point `(a, c)` (infinite weight) and a
second point with nonzero error, no exception occurs and the total weight is
`+inf`; but the weighted means evaluate to NaN (`+-inf / +inf` in IEEE
arithmetic) rather than to the zero-error point's coordinates, and the
result is `slope = +inf` with NaN in every other field. -/
theorem zero_error_gives_nan_means (a b c d e : ℚ)
    (ha : a ≠ 0) (hc : c ≠ 0) (he : e ≠ 0) :
    wRaw [FVal.fin 0, FVal.fin e] = FVal.pinf ∧
    xmVal [FVal.fin a, FVal.fin b] [FVal.fin 0, FVal.fin e] = FVal.nan ∧
    ymVal [FVal.fin c, FVal.fin d] [FVal.fin 0, FVal.fin e] = FVal.nan ∧
    linregress_with_errors [FVal.fin a, FVal.fin b] [FVal.fin c, FVal.fin d]
        [FVal.fin 0, FVal.fin e] =
      { slope := FVal.pinf, intercept := FVal.nan, slope_err := FVal.nan,
        intercept_err := FVal.nan, slope_intercept_covar := FVal.nan } := by
  have hee : e * e ≠ 0 := mul_ne_zero he he
  have haa : 0 < a * a := mul_self_pos.mpr ha
  rcases ha.lt_or_lt with ha' | ha' <;> rcases hc.lt_or_lt with hc' | hc'
  · have hacp : 0 < a * c := mul_pos_of_neg_of_neg ha' hc'
    norm_num [linregress_with_errors, slopeVal, interceptVal, slopeErrVal, interceptErrVal,
      covarVal, dx2mVal, dxymVal, xmVal, x2mVal, ymVal, xymVal, wVal, wRaw, weightList,
      nansum, zeroIfNan, FVal.powNegTwo, FVal.mul, FVal.div, FVal.add, FVal.sub, FVal.neg,
      FVal.sqrt, FVal.isNan, FVal.gtB, FVal.ltB, FVal.leB, FVal.eqB,
      hee, haa, hacp, ha'.ne, ha'.not_lt, hc'.ne, hc'.not_lt]
  · have hacn : a * c < 0 := mul_neg_of_neg_of_pos ha' hc'
    norm_num [linregress_with_errors, slopeVal, interceptVal, slopeErrVal, interceptErrVal,
      covarVal, dx2mVal, dxymVal, xmVal, x2mVal, ymVal, xymVal, wVal, wRaw, weightList,
      nansum, zeroIfNan, FVal.powNegTwo, FVal.mul, FVal.div, FVal.add, FVal.sub, FVal.neg,
      FVal.sqrt, FVal.isNan, FVal.gtB, FVal.ltB, FVal.leB, FVal.eqB,
      hee, haa, hacn.ne, hacn.not_lt, ha'.ne, ha'.not_lt, hc'.ne', hc']
  · have hacn : a * c < 0 := mul_neg_of_pos_of_neg ha' hc'
    norm_num [linregress_with_errors, slopeVal, interceptVal, slopeErrVal, interceptErrVal,
      covarVal, dx2mVal, dxymVal, xmVal, x2mVal, ymVal, xymVal, wVal, wRaw, weightList,
      nansum, zeroIfNan, FVal.powNegTwo, FVal.mul, FVal.div, FVal.add, FVal.sub, FVal.neg,
      FVal.sqrt, FVal.isNan, FVal.gtB, FVal.ltB, FVal.leB, FVal.eqB,
      hee, haa, hacn.ne, hacn.not_lt, ha'.ne', ha', hc'.ne, hc'.not_lt]
  · have hacp : 0 < a * c := mul_pos ha' hc'
    norm_num [linregress_with_errors, slopeVal, interceptVal, slopeErrVal, interceptErrVal,
      covarVal, dx2mVal, dxymVal, xmVal, x2mVal, ymVal, xymVal, wVal, wRaw, weightList,
      nansum, zeroIfNan, FVal.powNegTwo, FVal.mul, FVal.div, FVal.add, FVal.sub, FVal.neg,
      FVal.sqrt, FVal.isNan, FVal.gtB, FVal.ltB, FVal.leB, FVal.eqB,
      hee, haa, hacp, ha'.ne', ha', hc'.ne', hc']

/-- C5 counterexample: with zero-error point `(1, 3)` and second point
`(2, 4)` with error 1, the weighted means are NaN, not the zero-error
point's coordinates `x=1`, `y=3`: the infinite weight does not dominate. -/
theorem zero_error_means_not_converge :
    xmVal [FVal.fin 1, FVal.fin 2] [FVal.fin 0, FVal.fin 1] ≠ FVal.fin 1 ∧
    ymVal [FVal.fin 3, FVal.fin 4] [FVal.fin 0, FVal.fin 1] ≠ FVal.fin 3 := by
  norm_num [xmVal, ymVal, wVal, wRaw, weightList, nansum, zeroIfNan, FVal.powNegTwo,
    FVal.mul, FVal.div, FVal.add, FVal.isNan, FVal.leB]
  exact ⟨fun h => FVal.noConfusion h, fun h => FVal.noConfusion h⟩

/-- C5 witness at `a=1, b=2, c=3, d=4, e=1`. -/
theorem zero_error_gives_nan_means_witness :
    ((1 : ℚ) ≠ 0 ∧ (3 : ℚ) ≠ 0 ∧ (1 : ℚ) ≠ 0) ∧
    (wRaw [FVal.fin 0, FVal.fin 1] = FVal.pinf ∧
      xmVal [FVal.fin 1, FVal.fin 2] [FVal.fin 0, FVal.fin 1] = FVal.nan ∧
      ymVal [FVal.fin 3, FVal.fin 4] [FVal.fin 0, FVal.fin 1] = FVal.nan ∧
      linregress_with_errors [FVal.fin 1, FVal.fin 2] [FVal.fin 3, FVal.fin 4]
          [FVal.fin 0, FVal.fin 1] =
        { slope := FVal.pinf, intercept := FVal.nan, slope_err := FVal.nan,
          intercept_err := FVal.nan, slope_intercept_covar := FVal.nan }) :=
  ⟨⟨by norm_num, by norm_num, by norm_num⟩,
    zero_error_gives_nan_means 1 2 3 4 1 (by norm_num) (by norm_num) (by norm_num)⟩

/-! Classification of weights, sums and divisions, used for the normal
branch (claims about finiteness, guarded divisions and signs). -/

lemma powNegTwo_NN (e : FVal) : (FVal.powNegTwo e).NN := by
  cases e with
  | nan => left; rfl
  | pinf => right; right; exact ⟨0, rfl, le_refl 0⟩
  | ninf => right; right; exact ⟨0, rfl, le_refl 0⟩
  | fin q =>
    rcases eq_or_ne q 0 with rfl | hq
    · right; left
      norm_num [FVal.powNegTwo, FVal.mul, FVal.div]
    · right; right
      refine ⟨1 / (q * q), ?_, le_of_lt (div_pos one_pos (mul_self_pos.mpr hq))⟩
      simp [FVal.powNegTwo, FVal.mul, FVal.div, mul_ne_zero hq hq]

lemma NNF_zeroIfNan_of_NN {v : FVal} (h : v.NN) : (zeroIfNan v).NNF := by
  rcases h with rfl | h
  · exact Or.inr ⟨0, rfl, le_refl 0⟩
  · rcases h with rfl | ⟨q, rfl, hq⟩
    · exact Or.inl rfl
    · exact Or.inr ⟨q, rfl, hq⟩

lemma fadd_NNF {a b : FVal} (ha : a.NNF) (hb : b.NNF) : (FVal.add a b).NNF := by
  rcases ha with rfl | ⟨q, rfl, hq⟩ <;> rcases hb with rfl | ⟨r, rfl, hr⟩
  · exact Or.inl rfl
  · exact Or.inl rfl
  · exact Or.inl rfl
  · exact Or.inr ⟨q + r, rfl, by linarith⟩

lemma foldl_add_NNF : ∀ (l : List FVal) (acc : FVal), acc.NNF → (∀ v ∈ l, v.NNF) →
    (l.foldl FVal.add acc).NNF
  | [], acc, hacc, _ => hacc
  | v :: t, acc, hacc, hl => by
    refine foldl_add_NNF t (FVal.add acc v) (fadd_NNF hacc (hl v (by simp))) ?_
    exact fun u hu => hl u (by simp [hu])

lemma nansum_NNF {l : List FVal} (h : ∀ v ∈ l, v.NN) : (nansum l).NNF := by
  refine foldl_add_NNF _ _ (Or.inr ⟨0, rfl, le_refl 0⟩) ?_
  intro v hv
  rcases List.mem_map.mp hv with ⟨u, hu, rfl⟩
  exact NNF_zeroIfNan_of_NN (h u hu)

lemma wRaw_NNF (l_y_err : List FVal) : (wRaw l_y_err).NNF := by
  refine nansum_NNF ?_
  intro v hv
  rcases List.mem_map.mp hv with ⟨u, _, rfl⟩
  exact powNegTwo_NN u

lemma fadd_pinf_left {b : FVal} (hb : b.NNF) : FVal.add FVal.pinf b = FVal.pinf := by
  rcases hb with rfl | ⟨q, rfl, _⟩ <;> rfl

lemma foldl_add_pinf : ∀ (l : List FVal), (∀ v ∈ l, v.NNF) →
    l.foldl FVal.add FVal.pinf = FVal.pinf
  | [], _ => rfl
  | v :: t, hl => by
    rw [List.foldl_cons, fadd_pinf_left (hl v (by simp))]
    exact foldl_add_pinf t (fun u hu => hl u (by simp [hu]))

/-- A NaN-tolerant sum of non-negative values with a `+inf` member is `+inf`. -/
lemma nansum_pinf_of_mem {l : List FVal} (h : ∀ v ∈ l, v.NN)
    (hm : FVal.pinf ∈ l) : nansum l = FVal.pinf := by
  rcases List.append_of_mem hm with ⟨s, t, rfl⟩
  unfold nansum
  rw [List.map_append, List.foldl_append, List.map_cons, List.foldl_cons]
  have hs : ((s.map zeroIfNan).foldl FVal.add (FVal.fin 0)).NNF := by
    refine foldl_add_NNF _ _ (Or.inr ⟨0, rfl, le_refl 0⟩) ?_
    intro v hv
    rcases List.mem_map.mp hv with ⟨u, hu, rfl⟩
    exact NNF_zeroIfNan_of_NN (h u (by simp [hu]))
  have hz : zeroIfNan FVal.pinf = FVal.pinf := rfl
  rw [hz, fadd_comm, fadd_pinf_left hs]
  refine foldl_add_pinf _ ?_
  intro v hv
  rcases List.mem_map.mp hv with ⟨u, hu, rfl⟩
  exact NNF_zeroIfNan_of_NN (h u (by simp [hu]))

lemma fadd_fin_fin (q r : ℚ) : FVal.add (FVal.fin q) (FVal.fin r) = FVal.fin (q + r) := rfl

lemma foldl_add_fin : ∀ (l : List FVal) (q : ℚ), (∀ v ∈ l, ∃ r, v = FVal.fin r) →
    ∃ s, l.foldl FVal.add (FVal.fin q) = FVal.fin s
  | [], q, _ => ⟨q, rfl⟩
  | v :: t, q, hl => by
    rcases hl v (by simp) with ⟨r, rfl⟩
    rw [List.foldl_cons, fadd_fin_fin]
    exact foldl_add_fin t (q + r) (fun u hu => hl u (by simp [hu]))

/-- A NaN-tolerant sum of values that are each finite or NaN is finite. -/
lemma nansum_fin_of_FinOrNan {l : List FVal} (h : ∀ v ∈ l, v.FinOrNan) :
    ∃ s, nansum l = FVal.fin s := by
  refine foldl_add_fin _ _ ?_
  intro v hv
  rcases List.mem_map.mp hv with ⟨u, hu, rfl⟩
  rcases h u hu with rfl | ⟨q, rfl⟩
  · exact ⟨0, rfl⟩
  · exact ⟨q, rfl⟩

lemma div_pinf_cases (a : FVal) :
    FVal.div a FVal.pinf = FVal.fin 0 ∨ FVal.div a FVal.pinf = FVal.nan := by
  cases a
  · right; rfl
  · right; rfl
  · right; rfl
  · left; rfl

lemma isData_FinOrNan {v : FVal} (h : v.isData = true) : v.FinOrNan := by
  cases v
  · exact Or.inl rfl
  · exact absurd h (by simp [FVal.isData])
  · exact absurd h (by simp [FVal.isData])
  · exact Or.inr ⟨_, rfl⟩

lemma mul_FinOrNan {a b : FVal} (ha : a.FinOrNan) (hb : b.FinOrNan) :
    (FVal.mul a b).FinOrNan := by
  rcases ha with rfl | ⟨q, rfl⟩ <;> rcases hb with rfl | ⟨r, rfl⟩
  · exact Or.inl rfl
  · exact Or.inl rfl
  · exact Or.inl rfl
  · exact Or.inr ⟨q * r, rfl⟩

lemma zipWith_mul_FinOrNan : ∀ {l₁ l₂ : List FVal}, (∀ a ∈ l₁, a.FinOrNan) →
    (∀ b ∈ l₂, b.FinOrNan) → ∀ v ∈ List.zipWith FVal.mul l₁ l₂, v.FinOrNan
  | [], _, _, _ => by simp
  | _ :: _, [], _, _ => by simp
  | a :: t, b :: u, h₁, h₂ => by
    intro v hv
    rcases List.mem_cons.mp hv with rfl | hv'
    · exact mul_FinOrNan (h₁ a (by simp)) (h₂ b (by simp))
    · exact zipWith_mul_FinOrNan (fun x hx => h₁ x (by simp [hx]))
        (fun x hx => h₂ x (by simp [hx])) v hv'

lemma leB0_false_iff (v : FVal) :
    v.leB (FVal.fin 0) = false ↔
      v = FVal.nan ∨ v = FVal.pinf ∨ ∃ q, v = FVal.fin q ∧ 0 < q := by
  cases v <;> simp [FVal.leB]

lemma wVal_NNF (l_y_err : List FVal) : (wVal l_y_err).NNF := by
  unfold wVal
  split
  · exact Or.inr ⟨0, rfl, le_refl 0⟩
  · exact wRaw_NNF l_y_err

/-- C9: the computation is total — every division is guarded or sentinel.
Zero errors give `+inf` weight (a sentinel, not a failure); whenever a
branch divides by `W`, `dx2m` or `w * dx2m`, the preceding test guarantees
the divisor is not (exactly) zero; and a full five-field record is always
returned. -/
theorem regress_total_guarded_divisions (l_x l_y l_y_err : List FVal)
    (hlen : l_x.length = l_y.length ∧ l_y.length = l_y_err.length) :
    (∀ e ∈ l_y_err, e = FVal.fin 0 → FVal.powNegTwo e = FVal.pinf) ∧
    ((wRaw l_y_err).leB (FVal.fin 0) = false → wRaw l_y_err ≠ FVal.fin 0) ∧
    ((dx2mVal l_x l_y_err).gtB (FVal.fin 0) = true →
      dx2mVal l_x l_y_err ≠ FVal.fin 0) ∧
    ((dx2mVal l_x l_y_err).leB (FVal.fin 0) = false ∧
        (wVal l_y_err).eqB (FVal.fin 0) = false →
      wVal l_y_err ≠ FVal.fin 0 ∧ dx2mVal l_x l_y_err ≠ FVal.fin 0 ∧
        (wVal l_y_err).mul (dx2mVal l_x l_y_err) ≠ FVal.fin 0) ∧
    linregress_with_errors l_x l_y l_y_err =
      { slope := slopeVal l_x l_y l_y_err
        intercept := interceptVal l_x l_y l_y_err
        slope_err := slopeErrVal l_x l_y_err
        intercept_err := interceptErrVal l_x l_y_err
        slope_intercept_covar := covarVal l_x l_y_err } := by
  refine ⟨?_, ?_, ?_, ?_, rfl⟩
  · intro e _ he
    subst he
    norm_num [FVal.powNegTwo, FVal.mul, FVal.div]
  · intro h hc
    rw [hc] at h
    simp [FVal.leB] at h
  · intro h hc
    rw [hc] at h
    simp [FVal.gtB, FVal.ltB] at h
  · rintro ⟨h1, h2⟩
    have wne : wVal l_y_err ≠ FVal.fin 0 := by
      intro hc; rw [hc] at h2; simp [FVal.eqB] at h2
    have dne : dx2mVal l_x l_y_err ≠ FVal.fin 0 := by
      intro hc; rw [hc] at h1; simp [FVal.leB] at h1
    refine ⟨wne, dne, ?_⟩
    rcases wVal_NNF l_y_err with hw | ⟨q, hw, hq0⟩ <;>
      rcases (leB0_false_iff _).mp h1 with hd | hd | ⟨p, hd, hp⟩
    · rw [hw, hd]; exact fun h => FVal.noConfusion h
    · rw [hw, hd]; exact fun h => FVal.noConfusion h
    · rw [hw, hd]
      simp [FVal.mul, hp.ne', hp]
    · rw [hw, hd]; exact fun h => FVal.noConfusion h
    · have hq : 0 < q := by
        rcases hq0.lt_or_eq with h | h
        · exact h
        · exact absurd (hw.trans (by rw [h])) wne
      rw [hw, hd]
      simp [FVal.mul, hq.ne', hq]
    · have hq : 0 < q := by
        rcases hq0.lt_or_eq with h | h
        · exact h
        · exact absurd (hw.trans (by rw [h])) wne
      rw [hw, hd]
      simp [FVal.mul, (mul_pos hq hp).ne']

/-- C9 witness at the normal-branch input `x=[0,1]`, `y=[0,1]`,
`y_err=[0,1]` (a zero error in first position) checking each guard. -/
theorem regress_total_guarded_divisions_witness :
    ([FVal.fin 0, FVal.fin 1] : List FVal).length = ([FVal.fin 0, FVal.fin 1] : List FVal).length ∧
    FVal.powNegTwo (FVal.fin 0) = FVal.pinf ∧
    ((wRaw [FVal.fin 1, FVal.fin 1]).leB (FVal.fin 0) = false →
      wRaw [FVal.fin 1, FVal.fin 1] ≠ FVal.fin 0) ∧
    linregress_with_errors [FVal.fin 0, FVal.fin 1] [FVal.fin 0, FVal.fin 1]
        [FVal.fin 1, FVal.fin 1] =
      { slope := slopeVal [FVal.fin 0, FVal.fin 1] [FVal.fin 0, FVal.fin 1]
          [FVal.fin 1, FVal.fin 1]
        intercept := interceptVal [FVal.fin 0, FVal.fin 1] [FVal.fin 0, FVal.fin 1]
          [FVal.fin 1, FVal.fin 1]
        slope_err := slopeErrVal [FVal.fin 0, FVal.fin 1] [FVal.fin 1, FVal.fin 1]
        intercept_err := interceptErrVal [FVal.fin 0, FVal.fin 1] [FVal.fin 1, FVal.fin 1]
        slope_intercept_covar := covarVal [FVal.fin 0, FVal.fin 1]
          [FVal.fin 1, FVal.fin 1] } := by
  have h := regress_total_guarded_divisions [FVal.fin 0, FVal.fin 1]
    [FVal.fin 0, FVal.fin 1] [FVal.fin 1, FVal.fin 1] ⟨rfl, rfl⟩
  have h0 := regress_total_guarded_divisions [FVal.fin 0, FVal.fin 1]
    [FVal.fin 0, FVal.fin 1] [FVal.fin 0, FVal.fin 1] ⟨rfl, rfl⟩
  exact ⟨rfl, h0.1 (FVal.fin 0) (by simp) rfl, h.2.1, h.2.2.2.2⟩

lemma fmul_fin (q r : ℚ) : FVal.mul (FVal.fin q) (FVal.fin r) = FVal.fin (q * r) := rfl

lemma fneg_fin (q : ℚ) : FVal.neg (FVal.fin q) = FVal.fin (-q) := rfl

lemma fdiv_fin {r : ℚ} (q : ℚ) (h : r ≠ 0) :
    FVal.div (FVal.fin q) (FVal.fin r) = FVal.fin (q / r) := by simp [FVal.div, h]

lemma fsub_fin (q r : ℚ) : FVal.sub (FVal.fin q) (FVal.fin r) = FVal.fin (q - r) := by
  simp [FVal.sub, FVal.add, FVal.neg, sub_eq_add_neg]

lemma fsqrt_fin {q : ℚ} (h : 0 ≤ q) :
    FVal.sqrt (FVal.fin q) = FVal.fin (Rat.sqrt q) := by simp [FVal.sqrt, h.not_lt]

/-- In the normal error branch (`W = w₀ > 0` finite, `xm = m` finite,
`dx2m = p > 0` finite) the three error/covariance fields evaluate to
explicit finite rationals. -/
lemma err_fields_normal (l_x l_y_err : List FVal) (w₀ m p : ℚ)
    (hw : wRaw l_y_err = FVal.fin w₀) (hw0 : 0 < w₀)
    (hxm : xmVal l_x l_y_err = FVal.fin m)
    (hdx : dx2mVal l_x l_y_err = FVal.fin p) (hp : 0 < p) :
    slopeErrVal l_x l_y_err = FVal.fin (Rat.sqrt (1 / (w₀ * p))) ∧
    interceptErrVal l_x l_y_err = FVal.fin (Rat.sqrt ((1 + m * m / p) / w₀)) ∧
    covarVal l_x l_y_err = FVal.fin (-m / (w₀ * p)) := by
  have hle : (wRaw l_y_err).leB (FVal.fin 0) = false := by
    rw [hw]; simp [FVal.leB, not_le, hw0]
  have hwv : wVal l_y_err = FVal.fin w₀ := by simp [wVal, hw, FVal.leB, hw0.not_le]
  have hwp : (0:ℚ) < w₀ * p := mul_pos hw0 hp
  have hcond : ((dx2mVal l_x l_y_err).leB (FVal.fin 0) ||
      (wVal l_y_err).eqB (FVal.fin 0)) = false := by
    rw [hdx, hwv]; simp [FVal.leB, FVal.eqB, hp.not_le, hw0.ne']
  have harg2 : (0:ℚ) ≤ (1 + m * m / p) / w₀ := by
    have h1 : (0:ℚ) ≤ m * m / p := div_nonneg (mul_self_nonneg m) hp.le
    exact div_nonneg (by linarith) hw0.le
  refine ⟨?_, ?_, ?_⟩
  · rw [slopeErrVal, hcond]
    simp only [Bool.false_eq_true, if_false, hwv, hdx, fmul_fin,
      fdiv_fin 1 hwp.ne', fsqrt_fin (div_pos one_pos hwp).le]
  · rw [interceptErrVal, hcond]
    simp only [Bool.false_eq_true, if_false, hwv, hdx, hxm, fmul_fin,
      fdiv_fin (m * m) hp.ne', fadd_fin_fin, fdiv_fin (1 + m * m / p) hw0.ne',
      fsqrt_fin harg2]
  · rw [covarVal, hcond]
    simp only [Bool.false_eq_true, if_false, hwv, hdx, hxm, fneg_fin, fmul_fin,
      fdiv_fin (-m) hwp.ne']

/-- In the normal slope branch the slope and intercept evaluate to explicit
finite rationals. -/
lemma slope_intercept_normal (l_x l_y l_y_err : List FVal) (p dxy ymq m : ℚ)
    (hdx : dx2mVal l_x l_y_err = FVal.fin p) (hp : 0 < p)
    (hdxy : dxymVal l_x l_y l_y_err = FVal.fin dxy)
    (hym : ymVal l_y l_y_err = FVal.fin ymq)
    (hxm : xmVal l_x l_y_err = FVal.fin m) :
    slopeVal l_x l_y l_y_err = FVal.fin (dxy / p) ∧
    interceptVal l_x l_y l_y_err = FVal.fin (ymq - m * (dxy / p)) := by
  constructor
  · simp [slopeVal, hdxy, hdx, FVal.gtB, FVal.ltB, hp, FVal.div, hp.ne']
  · simp [interceptVal, hdxy, hdx, hym, hxm, FVal.gtB, FVal.ltB, hp, FVal.div,
      hp.ne', FVal.sub, FVal.mul, FVal.add, FVal.neg, sub_eq_add_neg]

/-- C10: in the normal branches (finite positive `W`, finite `xm`, finite
positive `dx2m`) the two error fields are non-negative finite values and the
covariance has the sign opposite to `xm`. -/
theorem err_covar_signs (l_x l_y l_y_err : List FVal) (w₀ m p : ℚ)
    (hw : wRaw l_y_err = FVal.fin w₀) (hw0 : 0 < w₀)
    (hxm : xmVal l_x l_y_err = FVal.fin m)
    (hdx : dx2mVal l_x l_y_err = FVal.fin p) (hp : 0 < p) :
    (∃ s, (linregress_with_errors l_x l_y l_y_err).slope_err = FVal.fin s ∧ 0 ≤ s) ∧
    (∃ t, (linregress_with_errors l_x l_y l_y_err).intercept_err = FVal.fin t ∧ 0 ≤ t) ∧
    ∃ cv, (linregress_with_errors l_x l_y l_y_err).slope_intercept_covar = FVal.fin cv ∧
      (0 < m → cv < 0) ∧ (m = 0 → cv = 0) ∧ (m < 0 → 0 < cv) := by
  obtain ⟨h1, h2, h3⟩ := err_fields_normal l_x l_y_err w₀ m p hw hw0 hxm hdx hp
  have hwp : (0:ℚ) < w₀ * p := mul_pos hw0 hp
  refine ⟨⟨_, h1, Rat.sqrt_nonneg _⟩, ⟨_, h2, Rat.sqrt_nonneg _⟩,
    ⟨-m / (w₀ * p), h3, ?_, ?_, ?_⟩⟩
  · intro hm; exact div_neg_of_neg_of_pos (neg_lt_zero.mpr hm) hwp
  · intro hm; simp [hm]
  · intro hm; exact div_pos (neg_pos.mpr hm) hwp

/-- C10 witness at `x=[0,1]`, `y=[0,1]`, `y_err=[1,1]`
(`W=2`, `xm=1/2`, `dx2m=1/4`). -/
theorem err_covar_signs_witness :
    (wRaw [FVal.fin 1, FVal.fin 1] = FVal.fin 2 ∧
      xmVal [FVal.fin 0, FVal.fin 1] [FVal.fin 1, FVal.fin 1] = FVal.fin (1/2) ∧
      dx2mVal [FVal.fin 0, FVal.fin 1] [FVal.fin 1, FVal.fin 1] = FVal.fin (1/4)) ∧
    ((∃ s, (linregress_with_errors [FVal.fin 0, FVal.fin 1] [FVal.fin 0, FVal.fin 1]
        [FVal.fin 1, FVal.fin 1]).slope_err = FVal.fin s ∧ 0 ≤ s) ∧
      (∃ t, (linregress_with_errors [FVal.fin 0, FVal.fin 1] [FVal.fin 0, FVal.fin 1]
        [FVal.fin 1, FVal.fin 1]).intercept_err = FVal.fin t ∧ 0 ≤ t) ∧
      ∃ cv, (linregress_with_errors [FVal.fin 0, FVal.fin 1] [FVal.fin 0, FVal.fin 1]
          [FVal.fin 1, FVal.fin 1]).slope_intercept_covar = FVal.fin cv ∧
        (0 < (1:ℚ)/2 → cv < 0) ∧ ((1:ℚ)/2 = 0 → cv = 0) ∧ ((1:ℚ)/2 < 0 → 0 < cv)) := by
  have hw : wRaw [FVal.fin 1, FVal.fin 1] = FVal.fin 2 := by
    norm_num [wRaw, weightList, nansum, zeroIfNan, FVal.powNegTwo, FVal.mul, FVal.div,
      FVal.add, FVal.isNan]
  have hxm : xmVal [FVal.fin 0, FVal.fin 1] [FVal.fin 1, FVal.fin 1] = FVal.fin (1/2) := by
    norm_num [xmVal, wRaw, weightList, nansum, zeroIfNan, FVal.powNegTwo, FVal.mul,
      FVal.div, FVal.add, FVal.isNan, FVal.leB]
  have hdx : dx2mVal [FVal.fin 0, FVal.fin 1] [FVal.fin 1, FVal.fin 1] = FVal.fin (1/4) := by
    norm_num [dx2mVal, x2mVal, xmVal, wRaw, weightList, nansum, zeroIfNan, FVal.powNegTwo,
      FVal.mul, FVal.div, FVal.add, FVal.sub, FVal.neg, FVal.isNan, FVal.leB]
  exact ⟨⟨hw, hxm, hdx⟩,
    err_covar_signs [FVal.fin 0, FVal.fin 1] [FVal.fin 0, FVal.fin 1]
      [FVal.fin 1, FVal.fin 1] 2 (1/2) (1/4) hw (by norm_num) hxm hdx (by norm_num)⟩

/-- With finite positive total weight, every weight entry is finite or NaN
(a `+inf` weight would force `W = +inf`). -/
lemma weights_FinOrNan_of_fin {l_y_err : List FVal} {w₀ : ℚ}
    (hw : wRaw l_y_err = FVal.fin w₀) :
    ∀ v ∈ weightList l_y_err, v.FinOrNan := by
  intro v hv
  rcases List.mem_map.mp hv with ⟨u, hu, rfl⟩
  rcases powNegTwo_NN u with h | h | ⟨q, h, _⟩
  · exact Or.inl h
  · exfalso
    have hmem : FVal.pinf ∈ weightList l_y_err := by
      rw [← h]; exact List.mem_map.mpr ⟨u, hu, rfl⟩
    have hnn : ∀ v ∈ weightList l_y_err, v.NN := by
      intro v hv
      rcases List.mem_map.mp hv with ⟨u', _, rfl⟩
      exact powNegTwo_NN u'
    have := nansum_pinf_of_mem hnn hmem
    rw [wRaw] at hw
    rw [this] at hw
    exact FVal.noConfusion hw
  · exact Or.inr ⟨q, h⟩

/-- With data-model `x` and `y` (finite or NaN entries) and finite positive
total weight, all four weighted means are finite. -/
lemma moments_fin_of_data {l_x l_y l_y_err : List FVal}
    (hx : ∀ v ∈ l_x, v.isData = true) (hy : ∀ v ∈ l_y, v.isData = true)
    {w₀ : ℚ} (hw : wRaw l_y_err = FVal.fin w₀) (hw0 : 0 < w₀) :
    ∃ m x2 ymq xyq, xmVal l_x l_y_err = FVal.fin m ∧
      x2mVal l_x l_y_err = FVal.fin x2 ∧ ymVal l_y l_y_err = FVal.fin ymq ∧
      xymVal l_x l_y l_y_err = FVal.fin xyq := by
  have hle : (wRaw l_y_err).leB (FVal.fin 0) = false := by
    rw [hw]; simp [FVal.leB, hw0.not_le]
  have hwfn := weights_FinOrNan_of_fin hw
  have hxfn : ∀ v ∈ l_x, v.FinOrNan := fun v hv => isData_FinOrNan (hx v hv)
  have hyfn : ∀ v ∈ l_y, v.FinOrNan := fun v hv => isData_FinOrNan (hy v hv)
  have hsqfn : ∀ v ∈ l_x.map (fun v => FVal.mul v v), v.FinOrNan := by
    intro v hv
    rcases List.mem_map.mp hv with ⟨u, hu, rfl⟩
    exact mul_FinOrNan (hxfn u hu) (hxfn u hu)
  obtain ⟨s1, hs1⟩ := nansum_fin_of_FinOrNan (zipWith_mul_FinOrNan hxfn hwfn)
  obtain ⟨s2, hs2⟩ := nansum_fin_of_FinOrNan (zipWith_mul_FinOrNan hsqfn hwfn)
  obtain ⟨s3, hs3⟩ := nansum_fin_of_FinOrNan (zipWith_mul_FinOrNan hyfn hwfn)
  obtain ⟨s4, hs4⟩ :=
    nansum_fin_of_FinOrNan (zipWith_mul_FinOrNan (zipWith_mul_FinOrNan hxfn hyfn) hwfn)
  exact ⟨s1 / w₀, s2 / w₀, s3 / w₀, s4 / w₀,
    by simp [xmVal, hw, FVal.leB, hw0.not_le, hs1, fdiv_fin s1 hw0.ne'],
    by simp [x2mVal, hw, FVal.leB, hw0.not_le, hs2, fdiv_fin s2 hw0.ne'],
    by simp [ymVal, hw, FVal.leB, hw0.not_le, hs3, fdiv_fin s3 hw0.ne'],
    by simp [xymVal, hw, FVal.leB, hw0.not_le, hs4, fdiv_fin s4 hw0.ne']⟩

/-- C6 (amended): when `W > 0` and `dx2m > 0` genuinely hold (`dx2m` a
positive value, not NaN) on a data-model input (finite or NaN entries), all
five output fields are finite. -/
theorem normal_branch_all_finite (l_x l_y l_y_err : List FVal)
    (hx : ∀ v ∈ l_x, v.isData = true) (hy : ∀ v ∈ l_y, v.isData = true)
    (hW : (wRaw l_y_err).gtB (FVal.fin 0) = true)
    (hD : (dx2mVal l_x l_y_err).gtB (FVal.fin 0) = true) :
    (linregress_with_errors l_x l_y l_y_err).slope.isFinite = true ∧
    (linregress_with_errors l_x l_y l_y_err).intercept.isFinite = true ∧
    (linregress_with_errors l_x l_y l_y_err).slope_err.isFinite = true ∧
    (linregress_with_errors l_x l_y l_y_err).intercept_err.isFinite = true ∧
    (linregress_with_errors l_x l_y l_y_err).slope_intercept_covar.isFinite = true := by
  rcases (gtB0_iff _).mp hW with hpw | ⟨w₀, hw, hw0⟩
  · exfalso
    have hle : (wRaw l_y_err).leB (FVal.fin 0) = false := by rw [hpw]; rfl
    have hxm0 : xmVal l_x l_y_err = FVal.fin 0 ∨ xmVal l_x l_y_err = FVal.nan := by
      rw [xmVal]
      simp only [hle, Bool.false_eq_true, if_false, hpw]
      exact div_pinf_cases _
    have hx2m0 : x2mVal l_x l_y_err = FVal.fin 0 ∨ x2mVal l_x l_y_err = FVal.nan := by
      rw [x2mVal]
      simp only [hle, Bool.false_eq_true, if_false, hpw]
      exact div_pinf_cases _
    have hdx0 : dx2mVal l_x l_y_err = FVal.fin 0 ∨ dx2mVal l_x l_y_err = FVal.nan := by
      rcases hxm0 with h | h <;> rcases hx2m0 with h2 | h2 <;>
        simp [dx2mVal, h, h2, FVal.mul, FVal.sub, FVal.add, FVal.neg]
    rcases hdx0 with h | h <;> rw [h] at hD <;> simp [FVal.gtB, FVal.ltB] at hD
  · obtain ⟨m, x2, ymq, xyq, hxm, hx2m, hym, hxym⟩ := moments_fin_of_data hx hy hw hw0
    have hdx : dx2mVal l_x l_y_err = FVal.fin (x2 - m * m) := by
      simp [dx2mVal, hxm, hx2m, fmul_fin, fsub_fin]
    have hp : 0 < x2 - m * m := by
      rw [hdx] at hD
      simpa [FVal.gtB, FVal.ltB] using hD
    have hdxy : dxymVal l_x l_y l_y_err = FVal.fin (xyq - m * ymq) := by
      simp [dxymVal, hxym, hxm, hym, fmul_fin, fsub_fin]
    obtain ⟨hs, hi⟩ := slope_intercept_normal l_x l_y l_y_err (x2 - m * m)
      (xyq - m * ymq) ymq m hdx hp hdxy hym hxm
    obtain ⟨h1, h2, h3⟩ := err_fields_normal l_x l_y_err w₀ m (x2 - m * m)
      hw hw0 hxm hdx hp
    exact ⟨by simp [linregress_with_errors, hs, FVal.isFinite],
      by simp [linregress_with_errors, hi, FVal.isFinite],
      by simp [linregress_with_errors, h1, FVal.isFinite],
      by simp [linregress_with_errors, h2, FVal.isFinite],
      by simp [linregress_with_errors, h3, FVal.isFinite]⟩

/-- C6 counterexample: on `x=[1,2]`, `y=[1,2]`, `y_err=[0,1]` the total
weight is `+inf > 0` and `dx2m` is NaN, so `dx2m <= 0` is false — the
claim's hypothesis — yet the returned slope is `+inf`, not finite. -/
theorem nan_variance_slope_not_finite :
    (wRaw [FVal.fin 0, FVal.fin 1]).gtB (FVal.fin 0) = true ∧
    (dx2mVal [FVal.fin 1, FVal.fin 2] [FVal.fin 0, FVal.fin 1]).leB
      (FVal.fin 0) = false ∧
    dx2mVal [FVal.fin 1, FVal.fin 2] [FVal.fin 0, FVal.fin 1] = FVal.nan ∧
    (linregress_with_errors [FVal.fin 1, FVal.fin 2] [FVal.fin 1, FVal.fin 2]
      [FVal.fin 0, FVal.fin 1]).slope.isFinite = false := by
  norm_num [linregress_with_errors, slopeVal, interceptVal, slopeErrVal, interceptErrVal,
    covarVal, dx2mVal, dxymVal, xmVal, x2mVal, ymVal, xymVal, wVal, wRaw, weightList,
    nansum, zeroIfNan, FVal.powNegTwo, FVal.mul, FVal.div, FVal.add, FVal.sub, FVal.neg,
    FVal.sqrt, FVal.isNan, FVal.isFinite, FVal.gtB, FVal.ltB, FVal.leB, FVal.eqB]

/-- C6 witness at `x=[0,1]`, `y=[0,1]`, `y_err=[1,1]`. -/
theorem normal_branch_all_finite_witness :
    ((∀ v ∈ ([FVal.fin 0, FVal.fin 1] : List FVal), v.isData = true) ∧
      (wRaw [FVal.fin 1, FVal.fin 1]).gtB (FVal.fin 0) = true ∧
      (dx2mVal [FVal.fin 0, FVal.fin 1] [FVal.fin 1, FVal.fin 1]).gtB
        (FVal.fin 0) = true) ∧
    ((linregress_with_errors [FVal.fin 0, FVal.fin 1] [FVal.fin 0, FVal.fin 1]
        [FVal.fin 1, FVal.fin 1]).slope.isFinite = true ∧
      (linregress_with_errors [FVal.fin 0, FVal.fin 1] [FVal.fin 0, FVal.fin 1]
        [FVal.fin 1, FVal.fin 1]).intercept.isFinite = true ∧
      (linregress_with_errors [FVal.fin 0, FVal.fin 1] [FVal.fin 0, FVal.fin 1]
        [FVal.fin 1, FVal.fin 1]).slope_err.isFinite = true ∧
      (linregress_with_errors [FVal.fin 0, FVal.fin 1] [FVal.fin 0, FVal.fin 1]
        [FVal.fin 1, FVal.fin 1]).intercept_err.isFinite = true ∧
      (linregress_with_errors [FVal.fin 0, FVal.fin 1] [FVal.fin 0, FVal.fin 1]
        [FVal.fin 1, FVal.fin 1]).slope_intercept_covar.isFinite = true) := by
  have hdata : ∀ v ∈ ([FVal.fin 0, FVal.fin 1] : List FVal), v.isData = true := by
    intro v hv
    rcases List.mem_cons.mp hv with rfl | hv'
    · rfl
    · rcases List.mem_cons.mp hv' with rfl | hv''
      · rfl
      · exact absurd hv'' (List.not_mem_nil v)
  have hW : (wRaw [FVal.fin 1, FVal.fin 1]).gtB (FVal.fin 0) = true := by
    norm_num [wRaw, weightList, nansum, zeroIfNan, FVal.powNegTwo, FVal.mul, FVal.div,
      FVal.add, FVal.isNan, FVal.gtB, FVal.ltB]
  have hD : (dx2mVal [FVal.fin 0, FVal.fin 1] [FVal.fin 1, FVal.fin 1]).gtB
      (FVal.fin 0) = true := by
    norm_num [dx2mVal, x2mVal, xmVal, wRaw, weightList, nansum, zeroIfNan,
      FVal.powNegTwo, FVal.mul, FVal.div, FVal.add, FVal.sub, FVal.neg, FVal.isNan,
      FVal.gtB, FVal.ltB, FVal.leB]
  exact ⟨⟨hdata, hW, hD⟩,
    normal_branch_all_finite [FVal.fin 0, FVal.fin 1] [FVal.fin 0, FVal.fin 1]
      [FVal.fin 1, FVal.fin 1] hdata hdata hW hD⟩
